import Mathlib

/-!
Verification of the FrequencyRanker utility of the QTM-340 notebooks.

The modelled source is the cell of
`src/notebooks/.ipynb_checkpoints/class10-sklearn-countvectorizer-inclass-ds-checkpoint.ipynb`
that builds `dictVocab` (a Python dict from vocabulary term to the column
sum of the document-term matrix, inserted in increasing column order),
sorts it with `sorted(dictVocab.items(), key=lambda x: x[1], reverse=True)`
(a stable descending sort), and takes Python list slices
`sortVocab[0:30]` and `sortVocab[200:230]` (clamping, never raising).
-/

namespace FrequencyRanker

/-- A document-term matrix: `rows` are the per-document count vectors and
`cols` is `dtm.shape[1]`; every row has length `cols`. Entries are
non-negative integers, modelled as `Nat`. -/
structure DTM where
  rows : List (List Nat)
  cols : Nat
  wf : ∀ r ∈ rows, r.length = cols

/-- `dtm.toarray().sum(axis=0)[j]`: the sum of column `j` over all rows. -/
def colSum (m : DTM) (j : Nat) : Nat :=
  (m.rows.map (fun row => row.getD j 0)).sum

/-- The Python runtime error raised by an out-of-range sequence index,
as raised by `cv.get_feature_names()[x]`. -/
inductive PyError where
  | indexError
deriving DecidableEq, Repr

/-- Python dict assignment `d[k] = v` on an insertion-ordered dict
(Python 3.7 semantics, as used by the notebook): if the key is present its
value is replaced in place, otherwise the pair is appended. -/
def dictInsert : List (String × Nat) → String → Nat → List (String × Nat)
  | [], k, v => [(k, v)]
  | p :: d, k, v => if p.1 = k then (k, v) :: d else p :: dictInsert d k v

/-- The body of the notebook loop
`for x in range(dtm.shape[1]): dictVocab[cv.get_feature_names()[x]] = ...`,
run over an explicit list of column indices. Indexing the vocabulary out
of range raises `indexError`, exactly as `get_feature_names()[x]` would. -/
def aggLoop (m : DTM) (vocab : List String) :
    List Nat → List (String × Nat) → Except PyError (List (String × Nat))
  | [], d => Except.ok d
  | x :: xs, d =>
    match vocab.get? x with
    | some t => aggLoop m vocab xs (dictInsert d t (colSum m x))
    | none => Except.error PyError.indexError

/-- `aggregate()`: builds `dictVocab` by iterating the column indices
`range(dtm.shape[1])` in increasing order. -/
def aggregate (m : DTM) (vocab : List String) : Except PyError (List (String × Nat)) :=
  aggLoop m vocab (List.range m.cols) []

/-- The comparison underlying
`sorted(..., key=lambda x: x[1], reverse=True)`: `a` may precede `b`
exactly when `a`'s count is at least `b`'s. -/
def countGE (a b : String × Nat) : Prop := b.2 ≤ a.2

instance : DecidableRel countGE := fun a b => Nat.decLe b.2 a.2

instance : IsTotal (String × Nat) countGE :=
  ⟨fun a b => (Nat.le_total a.2 b.2).symm⟩

instance : IsTrans (String × Nat) countGE :=
  ⟨fun _ _ _ hab hbc => Nat.le_trans hbc hab⟩

/-- `rank(table)` = `sorted(dictVocab.items(), key=lambda x: x[1],
reverse=True)`: a stable sort, descending by count; ties keep the order
of the input table (CPython guarantees stability also for reverse
sorts). -/
def rank (t : List (String × Nat)) : List (String × Nat) :=
  List.insertionSort countGE t

/-- A ranked list is already a mapping from (unique) terms to counts in a
fixed order, so converting it back to a table is the identity. -/
def rank_as_table (l : List (String × Nat)) : List (String × Nat) := l

/-- Python list slicing `l[a:b]` for non-negative `a`, `b`: the elements
at indices `a, ..., b-1`, clamped to the list, never raising. -/
def sliceRange (l : List (String × Nat)) (a b : Nat) : List (String × Nat) :=
  (l.take b).drop a

/-- `topN(n)` is the slice `sortVocab[0:n]`. -/
def topN (l : List (String × Nat)) (n : Nat) : List (String × Nat) :=
  sliceRange l 0 n

/-- The table `aggregate` produces on well-formed input: one entry per
column index `j`, in increasing column order, holding the term at
vocabulary index `j` and the sum of column `j`. -/
def aggTable (m : DTM) (vocab : List String) : List (String × Nat) :=
  (List.range m.cols).map (fun j => (vocab.getD j "", colSum m j))

/-- Looking a term up in a table: the count of the first entry carrying
that term. -/
def lookupCount (t : List (String × Nat)) (k : String) : Option Nat :=
  (t.find? (fun p => p.1 == k)).map Prod.snd

/-- The document-term matrix of the spec's worked example. -/
def exampleDTM : DTM :=
  ⟨[[2, 0, 1], [1, 1, 1]], 3, by decide⟩

/-- The vocabulary of the spec's worked example. -/
def exampleVocab : List String := ["cat", "dog", "sun"]

/-- An empty matrix: 0 rows, `C` columns. -/
def emptyDTM (C : Nat) : DTM :=
  ⟨[], C, by intro r hr; cases hr⟩

/-- A one-column matrix, shorter than the two-term vocabulary of the
dimension-mismatch counterexample. -/
def mismatchDTM : DTM :=
  ⟨[[1]], 1, by decide⟩

/-- A two-column matrix, longer than a one-term vocabulary. -/
def shortVocabDTM : DTM :=
  ⟨[[1, 2]], 2, by decide⟩

/-! ### Helper lemmas -/

theorem pairwise_of_forall {α : Type} {r : α → α → Prop} (h : ∀ a b, r a b) :
    ∀ l : List α, l.Pairwise r
  | [] => List.Pairwise.nil
  | _ :: l => List.Pairwise.cons (fun b _ => h _ b) (pairwise_of_forall h l)

theorem map_getD_range_self {α : Type} (l : List α) (d : α) :
    (List.range l.length).map (fun j => l.getD j d) = l := by
  apply List.ext_getElem
  · simp
  · intro i h1 h2
    simp only [List.getElem_map, List.getElem_range]
    exact List.getD_eq_getElem l d h2

theorem dictInsert_of_fresh (d : List (String × Nat)) (k : String) (v : Nat)
    (h : ∀ p ∈ d, p.1 ≠ k) : dictInsert d k v = d ++ [(k, v)] := by
  induction d with
  | nil => rfl
  | cons p d ih =>
    rw [dictInsert, if_neg (h p (List.mem_cons_self p d))]
    rw [ih (fun q hq => h q (List.mem_cons_of_mem p hq))]
    rfl

theorem aggLoop_ok_of_fresh (m : DTM) (vocab : List String) (xs : List Nat)
    (d : List (String × Nat))
    (hlt : ∀ x ∈ xs, x < vocab.length)
    (hfresh : ∀ x ∈ xs, ∀ p ∈ d, p.1 ≠ vocab.getD x "")
    (hnd : (xs.map (fun x => vocab.getD x "")).Nodup) :
    aggLoop m vocab xs d =
      Except.ok (d ++ xs.map (fun x => (vocab.getD x "", colSum m x))) := by
  induction xs generalizing d with
  | nil => simp [aggLoop]
  | cons x xs ih =>
    have hx : x < vocab.length := hlt x (List.mem_cons_self x xs)
    have hget : vocab.get? x = some (vocab.getD x "") := by
      rw [List.get?_eq_getElem?, List.getElem?_eq_getElem hx, List.getD_eq_getElem _ _ hx]
    have hstep : aggLoop m vocab (x :: xs) d =
        aggLoop m vocab xs (dictInsert d (vocab.getD x "") (colSum m x)) := by
      rw [aggLoop, hget]
    rw [hstep]
    rw [dictInsert_of_fresh d _ _ (hfresh x (List.mem_cons_self x xs))]
    rw [List.map_cons, List.nodup_cons] at hnd
    rw [ih (d ++ [(vocab.getD x "", colSum m x)])
      (fun y hy => hlt y (List.mem_cons_of_mem x hy))
      ?_ hnd.2]
    · simp
    · intro y hy p hp
      rcases List.mem_append.mp hp with hpd | hpx
      · exact hfresh y (List.mem_cons_of_mem x hy) p hpd
      · have hpe : p = (vocab.getD x "", colSum m x) := by simpa using hpx
        rw [hpe]
        intro hcontra
        simp only at hcontra
        apply hnd.1
        rw [hcontra]
        exact List.mem_map_of_mem (fun z => vocab.getD z "") hy

theorem aggregate_eq_aggTable (m : DTM) (vocab : List String)
    (hlen : vocab.length = m.cols) (hnd : vocab.Nodup) :
    aggregate m vocab = Except.ok (aggTable m vocab) := by
  rw [aggregate, aggTable,
    aggLoop_ok_of_fresh m vocab (List.range m.cols) []
      (fun x hx => by rw [hlen]; exact List.mem_range.mp hx)
      (fun x _ p hp => absurd hp (List.not_mem_nil p)) ?_]
  · simp
  · rw [← hlen, map_getD_range_self vocab ""]
    exact hnd

theorem aggLoop_error (m : DTM) (vocab : List String) (xs : List Nat)
    (d : List (String × Nat)) (h : ∃ x ∈ xs, vocab.length ≤ x) :
    aggLoop m vocab xs d = Except.error PyError.indexError := by
  induction xs generalizing d with
  | nil => simp at h
  | cons x xs ih =>
    cases hget : vocab.get? x with
    | none =>
      rw [aggLoop, hget]
    | some t =>
      have hstep : aggLoop m vocab (x :: xs) d =
          aggLoop m vocab xs (dictInsert d t (colSum m x)) := by
        rw [aggLoop, hget]
      rw [hstep]
      have hx : x < vocab.length := by
        cases Nat.lt_or_ge x vocab.length with
        | inl h1 => exact h1
        | inr h1 =>
          rw [List.get?_eq_getElem?, List.getElem?_eq_none h1] at hget
          exact absurd hget (by simp)
      apply ih
      rcases h with ⟨y, hy, hylen⟩
      rcases List.mem_cons.mp hy with rfl | hymem
      · exact absurd hx (Nat.not_lt_of_ge hylen)
      · exact ⟨y, hymem, hylen⟩

theorem aggLoop_ok_exists (m : DTM) (vocab : List String) (xs : List Nat)
    (d : List (String × Nat)) (hlt : ∀ x ∈ xs, x < vocab.length) :
    ∃ t, aggLoop m vocab xs d = Except.ok t := by
  induction xs generalizing d with
  | nil => exact ⟨d, rfl⟩
  | cons x xs ih =>
    have hx : x < vocab.length := hlt x (List.mem_cons_self x xs)
    have hget : vocab.get? x = some (vocab.getD x "") := by
      rw [List.get?_eq_getElem?, List.getElem?_eq_getElem hx, List.getD_eq_getElem _ _ hx]
    have hstep : aggLoop m vocab (x :: xs) d =
        aggLoop m vocab xs (dictInsert d (vocab.getD x "") (colSum m x)) := by
      rw [aggLoop, hget]
    rw [hstep]
    exact ih _ (fun y hy => hlt y (List.mem_cons_of_mem x hy))

theorem find?_eq_of_nodup_keys (t : List (String × Nat))
    (hn : (t.map Prod.fst).Nodup) (k : String) (v : Nat) (hm : (k, v) ∈ t) :
    t.find? (fun p => p.1 == k) = some (k, v) := by
  induction t with
  | nil => cases hm
  | cons p t ih =>
    rw [List.map_cons, List.nodup_cons] at hn
    rcases List.mem_cons.mp hm with rfl | hmem
    · rw [List.find?_cons_of_pos _ (by simp)]
    · have hne : p.1 ≠ k := by
        intro hcontra
        exact hn.1 (hcontra ▸ List.mem_map_of_mem Prod.fst hmem)
      rw [List.find?_cons_of_neg _ (by simpa using hne)]
      exact ih hn.2 hmem

theorem pair_sublist_range {i j n : Nat} (hij : i < j) (hjn : j < n) :
    List.Sublist [i, j] (List.range n) := by
  induction n with
  | zero => cases hjn
  | succ n ih =>
    rw [List.range_succ]
    cases Nat.lt_or_ge j n with
    | inl hj => exact (ih hj).trans (List.sublist_append_left _ _)
    | inr hj =>
      have hjeq : j = n := Nat.le_antisymm (Nat.lt_succ_iff.mp hjn) hj
      subst hjeq
      have h1 : List.Sublist [i] (List.range j) :=
        List.singleton_sublist.mpr (List.mem_range.mpr hij)
      simpa using List.Sublist.append h1 (List.Sublist.refl [j])

theorem map_getD_range {α β : Type} (l : List α) (d : α) (f : α → β) :
    (List.range l.length).map (fun j => f (l.getD j d)) = l.map f := by
  apply List.ext_getElem
  · simp
  · intro i h1 h2
    simp only [List.getElem_map, List.getElem_range]
    rw [List.getD_eq_getElem l d (by simpa using h2)]

theorem aggTable_keys (m : DTM) (vocab : List String) (hlen : vocab.length = m.cols) :
    (aggTable m vocab).map Prod.fst = vocab := by
  apply List.ext_getElem
  · simp [aggTable, hlen]
  · intro i h1 h2
    simp only [aggTable, List.map_map, List.getElem_map, List.getElem_range, Function.comp]
    exact List.getD_eq_getElem vocab "" h2

/-! ### Claim theorems -/

/-- C1: for every document-term matrix with R rows and C columns of
non-negative integers and a parallel vocabulary of length C (unique terms,
per the data model), aggregate() returns a frequency table with exactly C
entries, in which the count mapped to the term at vocabulary index j
equals the arithmetic sum of column j of the matrix over all R rows. -/
theorem C1_aggregate_column_sums (m : DTM) (vocab : List String)
    (hlen : vocab.length = m.cols) (hnd : vocab.Nodup) :
    ∃ t, aggregate m vocab = Except.ok t ∧ t.length = m.cols ∧
      ∀ j, j < m.cols → lookupCount t (vocab.getD j "") = some (colSum m j) := by
  refine ⟨aggTable m vocab, aggregate_eq_aggTable m vocab hlen hnd, by simp [aggTable], ?_⟩
  intro j hj
  rw [lookupCount, find?_eq_of_nodup_keys _ ?_ _ (colSum m j) ?_]
  · rfl
  · rw [aggTable_keys m vocab hlen]
    exact hnd
  · exact List.mem_map_of_mem _ (List.mem_range.mpr hj)

theorem C1_witness :
    exampleVocab.length = exampleDTM.cols ∧ exampleVocab.Nodup ∧
    (∃ t, aggregate exampleDTM exampleVocab = Except.ok t ∧ t.length = exampleDTM.cols ∧
      ∀ j, j < exampleDTM.cols →
        lookupCount t (exampleVocab.getD j "") = some (colSum exampleDTM j)) :=
  ⟨rfl, by decide, C1_aggregate_column_sums exampleDTM exampleVocab rfl (by decide)⟩

/-- C2: for every frequency table, rank(table) returns a sequence whose
length equals the table's size, that is a permutation of the table's
entries, that is sorted non-increasing by count, and in which any two
entries with equal counts keep their relative order — both relative to
the table itself and, for a table built by aggregate(), relative to the
original vocabulary index order. -/
theorem C2_rank_sorted_stable (t : List (String × Nat)) :
    (rank t).length = t.length ∧
    List.Perm (rank t) t ∧
    List.Sorted countGE (rank t) ∧
    (∀ a b : String × Nat, a.2 = b.2 →
      List.Sublist [a, b] t → List.Sublist [a, b] (rank t)) ∧
    (∀ (m : DTM) (vocab : List String), vocab.length = m.cols → vocab.Nodup →
      aggregate m vocab = Except.ok t →
      ∀ i j, i < j → j < m.cols → colSum m i = colSum m j →
        List.Sublist [(vocab.getD i "", colSum m i), (vocab.getD j "", colSum m j)]
          (rank t)) := by
  have hperm : List.Perm (rank t) t := List.perm_insertionSort countGE t
  refine ⟨hperm.length_eq, hperm, List.sorted_insertionSort countGE t, ?_, ?_⟩
  · intro a b hab hsub
    apply List.pair_sublist_insertionSort
    · exact Nat.le_of_eq hab.symm
    · exact hsub
  · intro m vocab hlen hnd ht i j hij hj hcount
    have hteq : t = aggTable m vocab := by
      have h2 := aggregate_eq_aggTable m vocab hlen hnd
      rw [ht] at h2
      injection h2
    apply List.pair_sublist_insertionSort
    · exact Nat.le_of_eq hcount.symm
    · rw [hteq, aggTable]
      have hsub := List.Sublist.map (fun k => (vocab.getD k "", colSum m k))
        (pair_sublist_range hij hj)
      simpa using hsub

theorem C2_witness :
    (rank [("a", (0 : Nat)), ("b", 0)]).length = 2 ∧
    List.Sublist [("a", (0 : Nat)), ("b", 0)] (rank [("a", 0), ("b", 0)]) ∧
    List.Sublist [((["a", "b"] : List String).getD 0 "", colSum (emptyDTM 2) 0),
      ((["a", "b"] : List String).getD 1 "", colSum (emptyDTM 2) 1)]
      (rank [("a", 0), ("b", 0)]) := by
  have h := C2_rank_sorted_stable [("a", 0), ("b", 0)]
  refine ⟨h.1, h.2.2.2.1 ("a", 0) ("b", 0) rfl (List.Sublist.refl _), ?_⟩
  exact h.2.2.2.2 (emptyDTM 2) ["a", "b"] rfl (by decide) rfl 0 1
    (by decide) (by decide) rfl

/-- C3 counterexample: a vocabulary of length 2 against a matrix with a
single column — the lengths disagree, yet aggregate() does not fail: it
returns the table for the first (and only) column. -/
theorem C3_counterexample :
    (["a", "b"] : List String).length ≠ mismatchDTM.cols ∧
    aggregate mismatchDTM ["a", "b"] = Except.ok [("a", 1)] :=
  ⟨by decide, rfl⟩

/-- C3 amended: aggregate() performs no dimension check. When the
vocabulary is strictly shorter than matrix.columns, indexing the
vocabulary fails with an index-out-of-range error, surfaced immediately,
and no table is returned; when the vocabulary is at least as long as
matrix.columns (including strictly longer), aggregate() succeeds and
returns a frequency table. -/
theorem C3_amended_no_dimension_check (m : DTM) (vocab : List String) :
    (vocab.length < m.cols → aggregate m vocab = Except.error PyError.indexError) ∧
    (m.cols ≤ vocab.length → ∃ t, aggregate m vocab = Except.ok t) := by
  constructor
  · intro h
    exact aggLoop_error m vocab _ []
      ⟨vocab.length, List.mem_range.mpr h, Nat.le_refl _⟩
  · intro h
    exact aggLoop_ok_exists m vocab _ []
      (fun x hx => Nat.lt_of_lt_of_le (List.mem_range.mp hx) h)

theorem C3_witness :
    ((["a"] : List String).length < shortVocabDTM.cols ∧
      aggregate shortVocabDTM ["a"] = Except.error PyError.indexError) ∧
    (mismatchDTM.cols ≤ (["a", "b"] : List String).length ∧
      ∃ t, aggregate mismatchDTM ["a", "b"] = Except.ok t) :=
  ⟨⟨by decide, (C3_amended_no_dimension_check shortVocabDTM ["a"]).1 (by decide)⟩,
   ⟨by decide, (C3_amended_no_dimension_check mismatchDTM ["a", "b"]).2 (by decide)⟩⟩

/-- C4: topN(0) is empty, topN(len) is the whole ranked list, and for
every n > len, topN(n) returns the full list — the behaviour the code
exhibits uniformly for all such n (it never raises). -/
theorem C4_topN_bounds (l : List (String × Nat)) :
    topN l 0 = [] ∧ topN l l.length = l ∧ ∀ n, l.length < n → topN l n = l := by
  refine ⟨rfl, ?_, ?_⟩
  · simp [topN, sliceRange]
  · intro n hn
    simp [topN, sliceRange, List.take_of_length_le (Nat.le_of_lt hn)]

theorem C4_witness :
    ([("a", 1)] : List (String × Nat)).length < 5 ∧ topN [("a", 1)] 5 = [("a", 1)] :=
  ⟨by decide, (C4_topN_bounds [("a", 1)]).2.2 5 (by decide)⟩

/-- C5: rank is deterministic — two runs on tables derived from identical
matrix and vocabulary produce identical output sequences. -/
theorem C5_rank_deterministic (m m2 : DTM) (v v2 : List String)
    (t t2 : List (String × Nat)) (hm : m = m2) (hv : v = v2)
    (h : aggregate m v = Except.ok t) (h2 : aggregate m2 v2 = Except.ok t2) :
    rank t = rank t2 := by
  subst hm
  subst hv
  rw [h] at h2
  injection h2 with h3
  rw [h3]

theorem C5_witness :
    rank [("cat", 3), ("dog", 1), ("sun", 2)] = rank [("cat", 3), ("dog", 1), ("sun", 2)] :=
  C5_rank_deterministic exampleDTM exampleDTM exampleVocab exampleVocab
    [("cat", 3), ("dog", 1), ("sun", 2)] [("cat", 3), ("dog", 1), ("sun", 2)]
    rfl rfl rfl rfl

/-- C6: ranking is idempotent — converting the output of rank back into a
table and ranking it again reproduces the same ordered sequence. -/
theorem C6_rank_idempotent (t : List (String × Nat)) :
    rank (rank_as_table (rank t)) = rank t := by
  rw [rank_as_table]
  exact List.Sorted.insertionSort_eq (List.sorted_insertionSort countGE t)

/-- C7: on matrix rows [[2,0,1],[1,1,1]] with vocabulary
["cat","dog","sun"], aggregate() returns the table
[("cat",3),("dog",1),("sun",2)] and rank() on that table returns exactly
[("cat",3),("sun",2),("dog",1)]. -/
theorem C7_worked_example :
    aggregate exampleDTM exampleVocab = Except.ok [("cat", 3), ("dog", 1), ("sun", 2)] ∧
    rank [("cat", 3), ("dog", 1), ("sun", 2)] = [("cat", 3), ("sun", 2), ("dog", 1)] :=
  ⟨rfl, rfl⟩

/-- C8: for an empty matrix (0 rows, C columns) with a vocabulary of
length C, aggregate() maps every term to zero, and rank() on that table
returns the terms in exactly the original vocabulary order. -/
theorem C8_empty_matrix (C : Nat) (vocab : List String)
    (hlen : vocab.length = C) (hnd : vocab.Nodup) :
    aggregate (emptyDTM C) vocab = Except.ok (vocab.map (fun s => (s, 0))) ∧
    rank (vocab.map (fun s => (s, 0))) = vocab.map (fun s => (s, 0)) := by
  constructor
  · rw [aggregate_eq_aggTable (emptyDTM C) vocab hlen hnd, aggTable]
    have hc : (emptyDTM C).cols = vocab.length := by
      rw [hlen]
      rfl
    rw [hc]
    congr 1
    rw [← map_getD_range vocab "" (fun s => (s, 0))]
    rfl
  · apply List.Sorted.insertionSort_eq
    rw [List.Sorted, List.pairwise_map]
    exact pairwise_of_forall (fun a b => Nat.le_refl 0) vocab

theorem C8_witness :
    (["a", "b"] : List String).Nodup ∧
    aggregate (emptyDTM 2) ["a", "b"] = Except.ok [("a", 0), ("b", 0)] ∧
    rank [("a", 0), ("b", 0)] = [("a", 0), ("b", 0)] := by
  refine ⟨by decide, ?_⟩
  exact C8_empty_matrix 2 ["a", "b"] rfl (by decide)

/-- C9: the slicing operation is total and clamping — for non-negative
indices, if start is at least the list's length the slice is empty, and
if end exceeds the length the slice holds exactly the elements from start
through the last index, never failing. -/
theorem C9_slice_clamps (l : List (String × Nat)) (s e : Nat) :
    (l.length ≤ s → sliceRange l s e = []) ∧
    (l.length < e → sliceRange l s e = l.drop s) := by
  constructor
  · intro h
    rw [sliceRange]
    have hle : (l.take e).length ≤ l.length := by
      rw [List.length_take]
      exact Nat.min_le_right e l.length
    exact List.drop_eq_nil_of_le (Nat.le_trans hle h)
  · intro h
    rw [sliceRange, List.take_of_length_le (Nat.le_of_lt h)]

theorem C9_witness :
    (([("a", 1), ("b", 2)] : List (String × Nat)).length ≤ 200 ∧
      sliceRange [("a", 1), ("b", 2)] 200 230 = []) ∧
    (([("a", 1), ("b", 2)] : List (String × Nat)).length < 3 ∧
      sliceRange [("a", 1), ("b", 2)] 1 3 = [("a", 1), ("b", 2)].drop 1) :=
  ⟨⟨by decide, (C9_slice_clamps [("a", 1), ("b", 2)] 200 230).1 (by decide)⟩,
   ⟨by decide, (C9_slice_clamps [("a", 1), ("b", 2)] 1 3).2 (by decide)⟩⟩

/-- C10: aggregate() iterates column indices in increasing order, so the
table's entry order equals the vocabulary order; with unique vocabulary
terms no entry is overwritten and the table has one entry per term. -/
theorem C10_table_in_vocab_order (m : DTM) (vocab : List String)
    (hlen : vocab.length = m.cols) (hnd : vocab.Nodup) :
    ∃ t, aggregate m vocab = Except.ok t ∧ t.map Prod.fst = vocab ∧
      (t.map Prod.fst).Nodup ∧ t.length = vocab.length := by
  refine ⟨aggTable m vocab, aggregate_eq_aggTable m vocab hlen hnd,
    aggTable_keys m vocab hlen, ?_, ?_⟩
  · rw [aggTable_keys m vocab hlen]
    exact hnd
  · simp [aggTable, hlen]

theorem C10_witness :
    exampleVocab.Nodup ∧
    (∃ t, aggregate exampleDTM exampleVocab = Except.ok t ∧
      t.map Prod.fst = exampleVocab ∧
      (t.map Prod.fst).Nodup ∧ t.length = exampleVocab.length) :=
  ⟨by decide, C10_table_in_vocab_order exampleDTM exampleVocab rfl (by decide)⟩

end FrequencyRanker
